import Mathlib

/-!
Shallow embedding of the provably-fair dice duel program (`dice_game.js`).

The JavaScript source consists of the classes `Dice`, `DiceParser`,
`ProbabilityCalculator`, `SecureRandom`, `FairRandomGenerator`, `CoinFlip`
and `Game`, plus the free function `secureRandomIndex`.  Pure computations
are translated to Lean functions; the sources of randomness
(`crypto.randomBytes`) and the keyed-hash primitive (`crypto.createHmac`)
are external to the program and enter the embedding as explicit parameters
(a stream of byte buffers, respectively an abstract hex-digest family
indexed by the algorithm name).  Interactive input enters as the resolved
value of each prompt (`none` models the exit token "X", `some n` a
validated in-range number), matching the contract of `getUserInputStatic`.
-/

/-! ## Data model: `Dice` -/

/-- A die: an ordered sequence of integer face values.  In the source,
`numFaces` is set to `faces.length` at construction and never mutated. -/
structure Dice where
  faces : List Int
  deriving DecidableEq, Repr

instance : Inhabited Dice := ⟨⟨[]⟩⟩

/-- Number of faces; the constructor invariant `numFaces = faces.length`. -/
def Dice.numFaces (d : Dice) : Nat := d.faces.length

/-- Face lookup is modular: `getFace(index) = faces[index % numFaces]`.
JavaScript yields `undefined` when `numFaces = 0` (never reached by the
program); the embedding totalises that degenerate case with default `0`. -/
def Dice.getFace (d : Dice) (index : Nat) : Int :=
  d.faces.getD (index % d.numFaces) 0

/-! ## External collaborator: JavaScript string primitives

`DiceParser` calls two JavaScript built-ins, `String.prototype.split(',')`
and `Number`.  They are embedded here at the character-list level. -/

/-- Accumulator-style splitter behind `splitComma`. -/
def splitCommaAux : List Char → List Char → List (List Char)
  | [], acc => [acc.reverse]
  | c :: rest, acc =>
      if c = ',' then acc.reverse :: splitCommaAux rest []
      else splitCommaAux rest (c :: acc)

/-- Models `str.split(',')`: the comma-separated chunks of `str`, in order;
always at least one chunk (splitting `""` gives `[""]`). -/
def splitComma (s : String) : List (List Char) :=
  splitCommaAux s.toList []

/-- Decimal value of a digit string, most significant digit first. -/
def digitsVal (cs : List Char) : Nat :=
  cs.foldl (fun v c => v * 10 + (c.toNat - '0'.toNat)) 0

/-- Models the composite test `Number.isInteger(Number(numStr))` together
with the integer value it yields: `some k` when the JavaScript conversion
of the token is the integer `k`, `none` when it is `NaN` or fractional.
Restricted to the token shapes the program receives: an empty chunk
converts to `0` (a JavaScript quirk of `Number("")`), a chunk of decimal
digits with an optional leading minus sign converts to its value, and
every other chunk (letters, decimal points, stray signs) is rejected. -/
def jsNumber : List Char → Option Int
  | [] => some 0
  | '-' :: rest =>
      if rest ≠ [] ∧ rest.all Char.isDigit then some (-(digitsVal rest : Int))
      else none
  | cs =>
      if cs.all Char.isDigit then some ((digitsVal cs : Nat) : Int)
      else none

/-! ## `DiceParser` -/

namespace DiceParser

/-- Body of the `parts.map` callback in `parseDice`: convert every chunk of
one die specification, failing on the first non-integer token with the
source's error message. -/
def parseFaces : List (List Char) → Except String (List Int)
  | [] => .ok []
  | t :: rest =>
      match jsNumber t with
      | some n => (parseFaces rest).map (fun ns => n :: ns)
      | none => .error ("Not a number: " ++ String.mk t)

/-- The `for (const arg of args)` loop of `parseDice`: split each argument
on commas, reject an empty chunk list (unreachable, `split` never returns
an empty array), parse the faces and build one `Dice` per argument. -/
def parseDiceLoop : List String → Except String (List Dice)
  | [] => .ok []
  | arg :: rest =>
      let parts := splitComma arg
      if parts.length = 0 then .error "Each die needs at least one face!"
      else
        match parseFaces parts with
        | .ok faces => (parseDiceLoop rest).map (fun ds => Dice.mk faces :: ds)
        | .error e => .error e

/-- `DiceParser.parseDice(args)`: at least three die specifications are
required, then each is parsed into a `Dice`; the first failure aborts with
that error. -/
def parseDice (args : List String) : Except String (List Dice) :=
  if args.length < 3 then
    .error "You need at least 3 dice. Example: node dice_game.js 2,2,4,4,9,9 6,8,1,1,8,6 7,5,3,7,5,3"
  else parseDiceLoop args

end DiceParser

/-! ## `ProbabilityCalculator` -/

namespace ProbabilityCalculator

/-- `ProbabilityCalculator.winProbability(die1, die2)`: nested loops over
all face indices count the pairs where `die1`'s face strictly exceeds
`die2`'s; the count is divided by `numFaces * numFaces` (guarded against a
zero denominator, in which case `0` is returned). -/
def winProbability (die1 die2 : Dice) : ℚ :=
  let total := die1.numFaces * die2.numFaces
  let wins : Nat := (List.range die1.numFaces).foldl (fun w i =>
      (List.range die2.numFaces).foldl (fun w j =>
        if die1.getFace i > die2.getFace j then w + 1 else w) w) 0
  if 0 < total then (wins : ℚ) / (total : ℚ) else 0

/-- Abstraction of `generateProbabilityTable`: the matrix of pairwise win
probabilities the rendered ASCII table displays, with `none` on the
diagonal (printed as a dash in the source). -/
def probabilityTable (dice : List Dice) : List (List (Option ℚ)) :=
  (List.range dice.length).map (fun i =>
    (List.range dice.length).map (fun j =>
      if i = j then none
      else some (winProbability (dice.getD i default) (dice.getD j default))))

end ProbabilityCalculator

/-! ## `SecureRandom` and the unbiased sampler -/

/-- Type of the external keyed-hash primitive `crypto.createHmac`: given an
algorithm name, a key (a byte list) and a message, it returns the hex
digest as a character list.  The program treats it as a black box. -/
def HmacHex : Type := String → List Nat → String → List Char

namespace SecureRandom

/-- The algorithm selection on line 78 of the source:
`crypto.getHashes().includes('sha3-256') ? 'sha3-256' : 'sha256'`, where
`availableHashes` models `crypto.getHashes()`. -/
def selectHashAlgo (availableHashes : List String) : String :=
  if availableHashes.contains "sha3-256" then "sha3-256" else "sha256"

/-- `SecureRandom.computeHMAC(key, number)`: the algorithm is chosen at
runtime by `selectHashAlgo`, then the hex digest of `number.toString()`
under `key` is upper-cased. -/
def computeHMAC (hmacHex : HmacHex) (availableHashes : List String)
    (key : List Nat) (number : Nat) : List Char :=
  let algo := selectHashAlgo availableHashes
  (hmacHex algo key (toString number)).map Char.toUpper

end SecureRandom

/-- Length of the binary representation of `n`, with explicit fuel so that
the definition is structurally recursive; `bitLength` supplies `n` itself
as fuel, which always suffices since the argument halves each step. -/
def bitLenAux : Nat → Nat → Nat
  | 0, _ => 0
  | _ + 1, 0 => 0
  | fuel + 1, n + 1 => bitLenAux fuel ((n + 1) / 2) + 1

/-- Models `range.toString(2).length` for `range ≥ 1`: the number of binary
digits of `n`. -/
def bitLength (n : Nat) : Nat := bitLenAux n n

/-- The `while (true)` rejection loop of `secureRandomIndex`, consuming one
byte buffer from the stream per iteration: interpret the buffer as a
big-endian integer (`value = (value << 8) + buf[i]`), mask it to `bits`
bits, accept it when below `range` and otherwise redraw.  The JavaScript
loop blocks until acceptance; the embedding returns `none` when the given
finite stream is exhausted first. -/
def secureRandomLoop (range mask : Nat) : List (List Nat) → Option Nat
  | [] => none
  | buf :: rest =>
      let value := buf.foldl (fun v b => v * 256 + b) 0
      let value := value &&& mask
      if value < range then some value else secureRandomLoop range mask rest

/-- `secureRandomIndex(max)`, the bias-free sampler: `0` is returned
outright for `max = 0`; otherwise `range = max + 1`, the minimal bit-width
`bits` of `range` and the mask `(1 << bits) - 1` are computed and the
rejection loop runs on `ceil(bits / 8)`-byte draws.  `stream` models the
successive outputs of `crypto.randomBytes(bytes)`. -/
def secureRandomIndex (max : Nat) (stream : List (List Nat)) : Option Nat :=
  if max = 0 then some 0
  else
    let range := max + 1
    let bits := bitLength range
    let mask := (1 <<< bits) - 1
    secureRandomLoop range mask stream

/-- Number of bytes drawn per iteration of `secureRandomIndex`:
`Math.ceil(bits / 8)` for `bits = bitLength (max + 1)`. -/
def secureRandomBytesPerDraw (max : Nat) : Nat :=
  (bitLength (max + 1) + 7) / 8

/-! ## `FairRandomGenerator` (the Commitment Protocol round) -/

/-- State of one commitment round.  All four fields are written once by the
constructor and never mutated. -/
structure FairRandomGenerator where
  max : Nat
  key : List Nat
  computerNumber : Nat
  hmac : List Char
  deriving DecidableEq

namespace FairRandomGenerator

/-- The `FairRandomGenerator(max)` constructor: store `max`, draw a 32-byte
`key` (`SecureRandom.generateKey`) and a secure random `computerNumber`
(`secureRandomIndex(max)`), and compute the commitment digest
`SecureRandom.computeHMAC(key, computerNumber)`.  The two random draws are
passed in explicitly. -/
def create (hmacHex : HmacHex) (availableHashes : List String)
    (max : Nat) (key : List Nat) (computerNumber : Nat) : FairRandomGenerator :=
  { max := max
    key := key
    computerNumber := computerNumber
    hmac := SecureRandom.computeHMAC hmacHex availableHashes key computerNumber }

/-- `getHMAC()`: the digest published before any counterpart input. -/
def getHMAC (g : FairRandomGenerator) : List Char := g.hmac

/-- `computeResult(userNumber) = (computerNumber + userNumber) % (max + 1)`. -/
def computeResult (g : FairRandomGenerator) (userNumber : Nat) : Nat :=
  (g.computerNumber + userNumber) % (g.max + 1)

/-- `getKey()`: the secret key revealed after the counterpart's input. -/
def getKey (g : FairRandomGenerator) : List Nat := g.key

/-- `getComputerNumber()`: the committed value revealed after the
counterpart's input. -/
def getComputerNumber (g : FairRandomGenerator) : Nat := g.computerNumber

end FairRandomGenerator

/-! ## `Game` -/

inductive Verdict where
  | userWins
  | computerWins
  | tie
  deriving DecidableEq, Repr

/-- Observable outcome of `Game.run()`: either the match was cancelled at
some prompt (no rolls, no verdict, no report), or it finished with both
roll values, the verdict and the probability report. -/
inductive RunOutcome where
  | cancelled
  | finished (userFace computerFace : Int) (verdict : Verdict)
      (report : List (List (Option ℚ)))
  deriving DecidableEq

namespace Game

/-- `Game.computerRoll()` after the prompt resolved: a commitment round
with `max = computerDie.numFaces - 1` was created; the exit token (`none`)
aborts with `null`, otherwise the combined result
`computeResult(userNumber)` indexes the die via `getFace`. -/
def computerRoll (computerDie : Dice) (g : FairRandomGenerator) :
    Option Nat → Option Int
  | none => none
  | some userNumber => some (computerDie.getFace (g.computeResult userNumber))

/-- `Game.userRoll()` after the prompt resolved: identical to
`computerRoll` but on the user's die and its own fresh round. -/
def userRoll (userDie : Dice) (g : FairRandomGenerator) :
    Option Nat → Option Int
  | none => none
  | some userNumber => some (userDie.getFace (g.computeResult userNumber))

/-- The random draws `Game.run()` makes through `secureRandomIndex`: the
coin-flip commitment value (max 1), the computer's die index
(max `dice.length - 1`), and the committed value of each roll's round. -/
structure GameRand where
  coinNumber : Nat
  computerDieIndex : Nat
  computerRollNumber : Nat
  userRollNumber : Nat

/-- The secret keys drawn for the three commitment rounds of a match. -/
structure GameKeys where
  coinKey : List Nat
  computerRollKey : List Nat
  userRollKey : List Nat

/-- `Game.run()`: coin flip (a commitment round with `max = 1` combined
with the user's 0/1 choice; `result = 0` means the computer picks first),
die selection (the order of the two picks depends on `computerFirst` but
only console output order differs — the computer picks
`dice[secureRandomIndex(dice.length - 1)]` and the user's validated choice
indexes `dice` either way), then the two roll rounds, the verdict
comparison and the probability report.  `p0 … p3` are the resolved values
of the four prompts in order (coin choice, die choice, contribution to the
computer's roll, contribution to the user's roll); `none` is the exit
token, which makes `run` return at once: no roll is finalized, no verdict
is computed and no report is produced. -/
def run (hmacHex : HmacHex) (availableHashes : List String)
    (dice : List Dice) (keys : GameKeys) (rand : GameRand)
    (p0 p1 p2 p3 : Option Nat) : RunOutcome :=
  match p0 with
  | none => .cancelled
  | some userCoin =>
    let coinGen := FairRandomGenerator.create hmacHex availableHashes 1
        keys.coinKey rand.coinNumber
    let _computerFirst := (coinGen.getComputerNumber + userCoin) % 2 == 0
    match p1 with
    | none => .cancelled
    | some choice =>
      let computerDie := dice.getD rand.computerDieIndex default
      let userDie := dice.getD choice default
      let compGen := FairRandomGenerator.create hmacHex availableHashes
          (computerDie.numFaces - 1) keys.computerRollKey rand.computerRollNumber
      match computerRoll computerDie compGen p2 with
      | none => .cancelled
      | some computerFace =>
        let userGen := FairRandomGenerator.create hmacHex availableHashes
            (userDie.numFaces - 1) keys.userRollKey rand.userRollNumber
        match userRoll userDie userGen p3 with
        | none => .cancelled
        | some userFace =>
          let verdict :=
            if userFace > computerFace then Verdict.userWins
            else if computerFace > userFace then Verdict.computerWins
            else Verdict.tie
          .finished userFace computerFace verdict
            (ProbabilityCalculator.probabilityTable dice)

end Game

/-! ## Spec-side counting definitions

The specification describes `winProbability` as a ratio of counted
face-index pairs; these definitions follow the spec's words and are
compared with the loop-based source translation above. -/

/-- Number of face-index pairs `(i, j)` with `a.face(i) > b.face(j)`,
over all `i < a.numFaces`, `j < b.numFaces` (the spec's numerator). -/
def winPairs (a b : Dice) : Nat :=
  ((Finset.range a.numFaces ×ˢ Finset.range b.numFaces).filter
    (fun p => a.getFace p.1 > b.getFace p.2)).card

/-- Number of face-index pairs `(i, j)` with `a.face(i) = b.face(j)`. -/
def tiePairs (a b : Dice) : Nat :=
  ((Finset.range a.numFaces ×ˢ Finset.range b.numFaces).filter
    (fun p => a.getFace p.1 = b.getFace p.2)).card

/-- The spec's `tieFraction(a, b)`: tied pairs over all pairs. -/
def tieFraction (a b : Dice) : ℚ :=
  (tiePairs a b : ℚ) / ((a.numFaces * b.numFaces : Nat) : ℚ)

/-! ## Helper lemmas -/

/-- Modular face lookup lands inside the face list of a non-empty die. -/
theorem Dice.getFace_mem (d : Dice) (i : Nat) (h : 1 ≤ d.numFaces) :
    d.getFace i ∈ d.faces := by
  have hlt : i % d.numFaces < d.faces.length := Nat.mod_lt _ (by exact h)
  rw [Dice.getFace, List.getD_eq_getElem d.faces 0 hlt]
  exact List.getElem_mem hlt

/-- Dividing out one binary digit drops the size by one. -/
theorem size_div_two (n : Nat) (h : n ≠ 0) : Nat.size n = Nat.size (n / 2) + 1 := by
  conv_lhs => rw [← Nat.bit_decomp n]
  rw [Nat.size_bit (by rwa [Nat.bit_decomp])]
  rw [Nat.div2_val]

/-- With enough fuel, `bitLenAux` computes `Nat.size`. -/
theorem bitLenAux_eq_size : ∀ fuel n, n ≤ fuel → bitLenAux fuel n = Nat.size n := by
  intro fuel
  induction fuel with
  | zero =>
    intro n h
    interval_cases n
    simp [bitLenAux, Nat.size_zero]
  | succ f ih =>
    intro n h
    match n with
    | 0 => simp [bitLenAux, Nat.size_zero]
    | m + 1 =>
      rw [bitLenAux, ih ((m + 1) / 2) (by omega), size_div_two (m + 1) (by omega)]

/-- `bitLength` agrees with `Nat.size`: the fuel always suffices. -/
theorem bitLength_eq_size (n : Nat) : bitLength n = Nat.size n :=
  bitLenAux_eq_size n n le_rfl

/-- Every value the rejection loop accepts is below `range`. -/
theorem secureRandomLoop_lt (range mask : Nat) :
    ∀ stream v, secureRandomLoop range mask stream = some v → v < range := by
  intro stream
  induction stream with
  | nil => intro v h; simp [secureRandomLoop] at h
  | cons buf rest ih =>
    intro v h
    rw [secureRandomLoop] at h
    split at h
    · cases h; assumption
    · exact ih v h

/-- A conditional-increment fold counts the elements satisfying `p`. -/
theorem foldl_ite_count {α : Type} (p : α → Prop) [DecidablePred p] :
    ∀ (l : List α) (w0 : Nat),
      l.foldl (fun w j => if p j then w + 1 else w) w0
        = w0 + l.countP (fun j => decide (p j)) := by
  intro l
  induction l with
  | nil => intro w0; simp
  | cons a t ih =>
    intro w0
    by_cases h : p a
    · simp [List.foldl_cons, ih, List.countP_cons, h]
      omega
    · simp [List.foldl_cons, ih, List.countP_cons, h]

/-- Counting over `List.range` is the cardinality of the filtered
`Finset.range`. -/
theorem countP_range (p : Nat → Prop) [DecidablePred p] (n : Nat) :
    (List.range n).countP (fun j => decide (p j)) = ((Finset.range n).filter p).card := by
  induction n with
  | zero => simp
  | succ m ih =>
    rw [List.range_succ, Finset.range_succ]
    by_cases h : p m <;>
      simp [List.countP_append, ih, Finset.filter_insert, h, Finset.card_insert_of_not_mem]

/-- Accumulating fold of pointwise contributions is a sum. -/
theorem foldl_add_eq_sum (f : Nat → Nat) :
    ∀ (l : List Nat) (w0 : Nat), l.foldl (fun w i => w + f i) w0 = w0 + (l.map f).sum := by
  intro l
  induction l with
  | nil => intro w0; simp
  | cons a t ih => intro w0; simp [List.foldl_cons, ih]; omega

/-- Summing a function over `List.range` equals the `Finset.range` sum. -/
theorem sum_map_range (f : Nat → Nat) (n : Nat) :
    ((List.range n).map f).sum = ∑ i ∈ Finset.range n, f i := by
  induction n with
  | zero => simp
  | succ m ih => rw [List.range_succ, Finset.sum_range_succ, List.map_append]; simp [ih]

/-- Cardinality of a filtered index rectangle as a double sum. -/
theorem card_filter_product (n m : Nat) (p : Nat × Nat → Prop) [DecidablePred p] :
    ((Finset.range n ×ˢ Finset.range m).filter p).card
      = ∑ i ∈ Finset.range n, ∑ j ∈ Finset.range m, if p (i, j) then 1 else 0 := by
  rw [Finset.card_filter, Finset.sum_product]

/-- The nested counting loops of `winProbability` compute `winPairs`. -/
theorem wins_loop_eq_winPairs (die1 die2 : Dice) :
    (List.range die1.numFaces).foldl (fun w i =>
      (List.range die2.numFaces).foldl (fun w j =>
        if die1.getFace i > die2.getFace j then w + 1 else w) w) 0
      = winPairs die1 die2 := by
  have hinner : ∀ i w, (List.range die2.numFaces).foldl (fun w j =>
      if die1.getFace i > die2.getFace j then w + 1 else w) w
        = w + ((Finset.range die2.numFaces).filter
            (fun j => die1.getFace i > die2.getFace j)).card := by
    intro i w
    rw [foldl_ite_count (fun j => die1.getFace i > die2.getFace j), countP_range]
  calc (List.range die1.numFaces).foldl (fun w i =>
          (List.range die2.numFaces).foldl (fun w j =>
            if die1.getFace i > die2.getFace j then w + 1 else w) w) 0
      = (List.range die1.numFaces).foldl (fun w i =>
          w + ((Finset.range die2.numFaces).filter
            (fun j => die1.getFace i > die2.getFace j)).card) 0 := by
        congr 1
        funext w i
        exact hinner i w
    _ = ((List.range die1.numFaces).map (fun i =>
          ((Finset.range die2.numFaces).filter
            (fun j => die1.getFace i > die2.getFace j)).card)).sum := by
        rw [foldl_add_eq_sum]; omega
    _ = ∑ i ∈ Finset.range die1.numFaces,
          ((Finset.range die2.numFaces).filter
            (fun j => die1.getFace i > die2.getFace j)).card := sum_map_range ..
    _ = winPairs die1 die2 := by
        rw [winPairs, card_filter_product]
        refine Finset.sum_congr rfl (fun i _ => ?_)
        rw [Finset.card_filter]

/-- `winProbability` in closed form when both dice are non-empty. -/
theorem winProbability_eq (die1 die2 : Dice)
    (h1 : 1 ≤ die1.numFaces) (h2 : 1 ≤ die2.numFaces) :
    ProbabilityCalculator.winProbability die1 die2
      = (winPairs die1 die2 : ℚ) / ((die1.numFaces * die2.numFaces : Nat) : ℚ) := by
  simp only [ProbabilityCalculator.winProbability, wins_loop_eq_winPairs]
  rw [if_pos (by positivity)]

/-- Pointwise trichotomy of the three pair counters. -/
theorem ite_trichotomy (x y : Int) :
    (if x > y then (1 : Nat) else 0) + (if y > x then 1 else 0)
      + (if x = y then 1 else 0) = 1 := by
  rcases lt_trichotomy x y with h | h | h
  · simp [h, not_lt.mpr (le_of_lt h), ne_of_lt h]
  · simp [h]
  · simp [h, not_lt.mpr (le_of_lt h), ne_of_gt h]

/-- Win pairs in both directions and tie pairs partition the rectangle of
all face-index pairs. -/
theorem pairs_partition (a b : Dice) :
    winPairs a b + winPairs b a + tiePairs a b = a.numFaces * b.numFaces := by
  have hab : winPairs a b = ∑ i ∈ Finset.range a.numFaces,
      ∑ j ∈ Finset.range b.numFaces, if a.getFace i > b.getFace j then 1 else 0 := by
    rw [winPairs, card_filter_product]
  have hba : winPairs b a = ∑ i ∈ Finset.range a.numFaces,
      ∑ j ∈ Finset.range b.numFaces, if b.getFace j > a.getFace i then 1 else 0 := by
    rw [winPairs, card_filter_product]
    exact Finset.sum_comm
  have htie : tiePairs a b = ∑ i ∈ Finset.range a.numFaces,
      ∑ j ∈ Finset.range b.numFaces, if a.getFace i = b.getFace j then 1 else 0 := by
    rw [tiePairs, card_filter_product]
  have hrow : ∀ i,
      ((∑ j ∈ Finset.range b.numFaces, if a.getFace i > b.getFace j then 1 else 0)
        + (∑ j ∈ Finset.range b.numFaces, if b.getFace j > a.getFace i then 1 else 0))
        + (∑ j ∈ Finset.range b.numFaces, if a.getFace i = b.getFace j then 1 else 0)
      = b.numFaces := by
    intro i
    rw [← Finset.sum_add_distrib, ← Finset.sum_add_distrib]
    rw [Finset.sum_congr rfl (fun j _ => ite_trichotomy (a.getFace i) (b.getFace j))]
    simp
  rw [hab, hba, htie, ← Finset.sum_add_distrib, ← Finset.sum_add_distrib]
  rw [Finset.sum_congr rfl (fun i _ => hrow i)]
  simp [mul_comm]

/-! ## Claim theorems -/

/-- C1.  For every `max ≥ 0` and committed value in `[0, max]`, the map
`counterpartValue ↦ computeResult(counterpartValue)` of a commitment round
is a bijection on `[0, max]`: injective (no two distinct counterpart
inputs yield the same combined result) and surjective (every value in
`[0, max]` is attained). -/
theorem computeResult_bijective (hmacHex : HmacHex) (hashes : List String)
    (max c : Nat) (key : List Nat) (_hc : c ≤ max) :
    (∀ x, x ≤ max → ∀ y, y ≤ max →
      (FairRandomGenerator.create hmacHex hashes max key c).computeResult x
        = (FairRandomGenerator.create hmacHex hashes max key c).computeResult y
      → x = y) ∧
    (∀ r, r ≤ max → ∃ x, x ≤ max ∧
      (FairRandomGenerator.create hmacHex hashes max key c).computeResult x = r) := by
  constructor
  · intro x hx y hy h
    simp only [FairRandomGenerator.computeResult, FairRandomGenerator.create] at h
    have h2 : x ≡ y [MOD max + 1] := Nat.ModEq.add_left_cancel' c h
    have h3 : x % (max + 1) = y % (max + 1) := h2
    rwa [Nat.mod_eq_of_lt (by omega), Nat.mod_eq_of_lt (by omega)] at h3
  · intro r hr
    have hn : 0 < max + 1 := Nat.succ_pos max
    have hcn : c % (max + 1) < max + 1 := Nat.mod_lt _ hn
    refine ⟨(r + (max + 1) - c % (max + 1)) % (max + 1), ?_, ?_⟩
    · have := Nat.mod_lt (r + (max + 1) - c % (max + 1)) hn
      omega
    · simp only [FairRandomGenerator.computeResult, FairRandomGenerator.create]
      have h1 : c + (r + (max + 1) - c % (max + 1)) % (max + 1)
          ≡ c + (r + (max + 1) - c % (max + 1)) [MOD max + 1] :=
        Nat.ModEq.add_left c (Nat.mod_modEq _ _)
      have h2 : c + (r + (max + 1) - c % (max + 1))
          ≡ c % (max + 1) + (r + (max + 1) - c % (max + 1)) [MOD max + 1] :=
        Nat.ModEq.add_right _ ((Nat.mod_modEq c (max + 1)).symm)
      have h3 : c % (max + 1) + (r + (max + 1) - c % (max + 1)) = r + (max + 1) := by
        omega
      have h4 : c % (max + 1) + (r + (max + 1) - c % (max + 1)) ≡ r [MOD max + 1] := by
        rw [h3]; exact Nat.add_mod_right r (max + 1)
      have h5 : c + (r + (max + 1) - c % (max + 1)) % (max + 1) ≡ r [MOD max + 1] :=
        h1.trans (h2.trans h4)
      have h6 : (c + (r + (max + 1) - c % (max + 1)) % (max + 1)) % (max + 1)
          = r % (max + 1) := h5
      rwa [Nat.mod_eq_of_lt (show r < max + 1 by omega)] at h6

/-- C1 witness: the bijection property at `max = 2`, committed value `1`. -/
theorem computeResult_bijective_witness :
    (1 : Nat) ≤ 2 ∧
    ((∀ x, x ≤ 2 → ∀ y, y ≤ 2 →
      (FairRandomGenerator.create (fun _ _ _ => []) [] 2 [] 1).computeResult x
        = (FairRandomGenerator.create (fun _ _ _ => []) [] 2 [] 1).computeResult y
      → x = y) ∧
    (∀ r, r ≤ 2 → ∃ x, x ≤ 2 ∧
      (FairRandomGenerator.create (fun _ _ _ => []) [] 2 [] 1).computeResult x = r)) :=
  ⟨by decide, computeResult_bijective (fun _ _ _ => []) [] 2 1 [] (by decide)⟩

/-- C2.  For every commitment round, the state is write-once: the digest
published before reveal equals the keyed hash of the revealed secret key
and the decimal string of the revealed committed value, recomputing that
hash after reveal reproduces the published digest, and neither key,
committed value nor digest differs between publication and reveal. -/
theorem commitment_binding (hmacHex : HmacHex) (hashes : List String)
    (max : Nat) (key : List Nat) (n : Nat) :
    SecureRandom.computeHMAC hmacHex hashes
        (FairRandomGenerator.create hmacHex hashes max key n).getKey
        (FairRandomGenerator.create hmacHex hashes max key n).getComputerNumber
      = (FairRandomGenerator.create hmacHex hashes max key n).getHMAC ∧
    (FairRandomGenerator.create hmacHex hashes max key n).getHMAC
      = (hmacHex (SecureRandom.selectHashAlgo hashes) key (toString n)).map Char.toUpper ∧
    (FairRandomGenerator.create hmacHex hashes max key n).getKey = key ∧
    (FairRandomGenerator.create hmacHex hashes max key n).getComputerNumber = n :=
  ⟨rfl, rfl, rfl, rfl⟩

/-- C4 (refuting environment independence).  The digest algorithm is
selected from the runtime hash list: with `sha3-256` available the round
uses `sha3-256`, without it `sha256`, and for the very same key and
committed value the two environments can produce different digests. -/
theorem computeHMAC_env_dependent :
    SecureRandom.selectHashAlgo ["sha3-256", "sha256"] = "sha3-256" ∧
    SecureRandom.selectHashAlgo ["sha256"] = "sha256" ∧
    (∃ hmacHex : HmacHex, ∃ key : List Nat, ∃ n : Nat,
      SecureRandom.computeHMAC hmacHex ["sha3-256", "sha256"] key n
        ≠ SecureRandom.computeHMAC hmacHex ["sha256"] key n) :=
  ⟨rfl, rfl, ⟨fun algo _ _ => algo.toList, [], 0, by decide⟩⟩

/-- C5.  Each roll runs its own commitment round with
`max = numFaces - 1`; the rolled value is `getFace(combinedResult)` with
`combinedResult = (committedValue + counterpartValue) mod numFaces`, and
is always one of the die's faces. -/
theorem roll_indexes_die_faces (hmacHex : HmacHex) (hashes : List String)
    (die : Dice) (key : List Nat) (n u : Nat) (hd : 1 ≤ die.numFaces) :
    Game.computerRoll die
        (FairRandomGenerator.create hmacHex hashes (die.numFaces - 1) key n) (some u)
      = some (die.getFace ((n + u) % die.numFaces)) ∧
    Game.userRoll die
        (FairRandomGenerator.create hmacHex hashes (die.numFaces - 1) key n) (some u)
      = some (die.getFace ((n + u) % die.numFaces)) ∧
    die.getFace ((n + u) % die.numFaces) ∈ die.faces := by
  have hmod : die.numFaces - 1 + 1 = die.numFaces := by omega
  refine ⟨?_, ?_, Dice.getFace_mem die _ hd⟩
  · simp only [Game.computerRoll, FairRandomGenerator.computeResult,
      FairRandomGenerator.create, hmod]
  · simp only [Game.userRoll, FairRandomGenerator.computeResult,
      FairRandomGenerator.create, hmod]

/-- C5 witness: a concrete roll on the die `[2, 5]` with committed value
`1` and counterpart value `1`: combined result `0`, rolled face `2`. -/
theorem roll_indexes_die_faces_witness :
    Game.computerRoll (Dice.mk [2, 5])
        (FairRandomGenerator.create (fun _ _ _ => []) [] ((Dice.mk [2, 5]).numFaces - 1) [] 1)
        (some 1)
      = some ((Dice.mk [2, 5]).getFace ((1 + 1) % (Dice.mk [2, 5]).numFaces)) ∧
    Game.userRoll (Dice.mk [2, 5])
        (FairRandomGenerator.create (fun _ _ _ => []) [] ((Dice.mk [2, 5]).numFaces - 1) [] 1)
        (some 1)
      = some ((Dice.mk [2, 5]).getFace ((1 + 1) % (Dice.mk [2, 5]).numFaces)) ∧
    (Dice.mk [2, 5]).getFace ((1 + 1) % (Dice.mk [2, 5]).numFaces) ∈ (Dice.mk [2, 5]).faces :=
  roll_indexes_die_faces (fun _ _ _ => []) [] (Dice.mk [2, 5]) [] 1 1 (by decide)

/-- C6.  `Game.run` ends in the `cancelled` outcome — which carries no
roll values, no verdict and no probability report — exactly when the exit
token (`none`) is the resolved value of one of the interactive prompts the
match awaits. -/
theorem run_cancelled_iff (hmacHex : HmacHex) (hashes : List String)
    (dice : List Dice) (keys : Game.GameKeys) (rand : Game.GameRand)
    (p0 p1 p2 p3 : Option Nat) :
    Game.run hmacHex hashes dice keys rand p0 p1 p2 p3 = RunOutcome.cancelled ↔
      p0 = none ∨ p1 = none ∨ p2 = none ∨ p3 = none := by
  cases p0 <;> cases p1 <;> cases p2 <;> cases p3 <;>
    simp [Game.run, Game.computerRoll, Game.userRoll]

/-- C8.  For non-empty dice, `winProbability(a, b)` is exactly the number
of face-index pairs where `a`'s face beats `b`'s divided by
`a.numFaces * b.numFaces`, and lies in `[0, 1]`. -/
theorem winProbability_ratio_spec (a b : Dice)
    (h1 : 1 ≤ a.numFaces) (h2 : 1 ≤ b.numFaces) :
    ProbabilityCalculator.winProbability a b
        = (winPairs a b : ℚ) / ((a.numFaces * b.numFaces : Nat) : ℚ) ∧
    0 ≤ ProbabilityCalculator.winProbability a b ∧
    ProbabilityCalculator.winProbability a b ≤ 1 := by
  have hpos : (0 : ℚ) < ((a.numFaces * b.numFaces : Nat) : ℚ) := by
    exact_mod_cast Nat.mul_pos h1 h2
  have heq := winProbability_eq a b h1 h2
  refine ⟨heq, ?_, ?_⟩
  · rw [heq]
    have : (0 : ℚ) ≤ (winPairs a b : ℚ) := by positivity
    exact div_nonneg this (le_of_lt hpos)
  · rw [heq, div_le_one hpos]
    have hle : winPairs a b ≤ a.numFaces * b.numFaces := by
      calc winPairs a b
          ≤ (Finset.range a.numFaces ×ˢ Finset.range b.numFaces).card :=
            Finset.card_filter_le _ _
        _ = a.numFaces * b.numFaces := by
            rw [Finset.card_product]; simp
    exact_mod_cast hle

/-- C8 witness: the first two classic intransitive dice. -/
theorem winProbability_ratio_spec_witness :
    ProbabilityCalculator.winProbability (Dice.mk [2, 2, 4, 4, 9, 9]) (Dice.mk [1, 1, 6, 6, 8, 8])
        = (winPairs (Dice.mk [2, 2, 4, 4, 9, 9]) (Dice.mk [1, 1, 6, 6, 8, 8]) : ℚ)
          / (((Dice.mk [2, 2, 4, 4, 9, 9]).numFaces * (Dice.mk [1, 1, 6, 6, 8, 8]).numFaces : Nat) : ℚ) ∧
    0 ≤ ProbabilityCalculator.winProbability (Dice.mk [2, 2, 4, 4, 9, 9]) (Dice.mk [1, 1, 6, 6, 8, 8]) ∧
    ProbabilityCalculator.winProbability (Dice.mk [2, 2, 4, 4, 9, 9]) (Dice.mk [1, 1, 6, 6, 8, 8]) ≤ 1 :=
  winProbability_ratio_spec (Dice.mk [2, 2, 4, 4, 9, 9]) (Dice.mk [1, 1, 6, 6, 8, 8])
    (by decide) (by decide)

/-- C9.  For non-empty dice, the two win probabilities and the tie
fraction sum to `1`. -/
theorem winProbability_trichotomy_sum (a b : Dice)
    (h1 : 1 ≤ a.numFaces) (h2 : 1 ≤ b.numFaces) :
    ProbabilityCalculator.winProbability a b + ProbabilityCalculator.winProbability b a
        + tieFraction a b = 1 := by
  have hN : ((a.numFaces * b.numFaces : Nat) : ℚ) ≠ 0 := by
    have : (0 : ℚ) < ((a.numFaces * b.numFaces : Nat) : ℚ) := by
      exact_mod_cast Nat.mul_pos h1 h2
    exact ne_of_gt this
  rw [winProbability_eq a b h1 h2, winProbability_eq b a h2 h1, tieFraction]
  have hcomm : ((b.numFaces * a.numFaces : Nat) : ℚ) = ((a.numFaces * b.numFaces : Nat) : ℚ) := by
    rw [Nat.mul_comm]
  rw [hcomm, div_add_div_same, div_add_div_same, div_eq_one_iff_eq hN]
  exact_mod_cast pairs_partition a b

/-- C9 witness: the first two classic intransitive dice. -/
theorem winProbability_trichotomy_sum_witness :
    ProbabilityCalculator.winProbability (Dice.mk [2, 2, 4, 4, 9, 9]) (Dice.mk [1, 1, 6, 6, 8, 8])
      + ProbabilityCalculator.winProbability (Dice.mk [1, 1, 6, 6, 8, 8]) (Dice.mk [2, 2, 4, 4, 9, 9])
      + tieFraction (Dice.mk [2, 2, 4, 4, 9, 9]) (Dice.mk [1, 1, 6, 6, 8, 8]) = 1 :=
  winProbability_trichotomy_sum (Dice.mk [2, 2, 4, 4, 9, 9]) (Dice.mk [1, 1, 6, 6, 8, 8])
    (by decide) (by decide)

/-- C10.  `winProbability` is total even off the DiceSet invariant: with a
zero-face die (zero denominator) it returns `0` instead of dividing. -/
theorem winProbability_degenerate_zero (a b : Dice)
    (h : a.numFaces * b.numFaces = 0) :
    ProbabilityCalculator.winProbability a b = 0 := by
  simp only [ProbabilityCalculator.winProbability]
  rw [if_neg (by omega)]

/-- C10 witness: an empty die against a one-face die. -/
theorem winProbability_degenerate_zero_witness :
    ProbabilityCalculator.winProbability (Dice.mk []) (Dice.mk [1]) = 0 :=
  winProbability_degenerate_zero (Dice.mk []) (Dice.mk [1]) (by decide)

/-! ## Claim C3: the unbiased sampler -/

/-- Bit-length bounds: `bitLength n` is the minimal bit-width covering a
positive `n`. -/
theorem bitLength_bounds (n : Nat) (h : 1 ≤ n) :
    2 ^ (bitLength n - 1) ≤ n ∧ n < 2 ^ bitLength n := by
  rw [bitLength_eq_size]
  have hpos : 0 < Nat.size n := Nat.size_pos.mpr (by omega)
  exact ⟨Nat.lt_size.mp (by omega), Nat.lt_size_self n⟩

/-- C3.  `secureRandomIndex(max)` returns `0` for `max = 0` without
consuming the random stream; every value it returns is in `[0, max]`; and
for `max ≥ 1` it works with `range = max + 1`, the minimal covering
bit-width `bits = bitLength range`, draws of `ceil(bits / 8)` bytes, and a
rejection step per draw: the big-endian value of the buffer is masked to
`bits` bits (a reduction mod `2 ^ bits`) and accepted exactly when it is
below `range`, otherwise the loop redraws. -/
theorem secureRandomIndex_spec :
    (∀ stream, secureRandomIndex 0 stream = some 0) ∧
    (∀ max stream v, secureRandomIndex max stream = some v → v ≤ max) ∧
    (∀ max : Nat, 1 ≤ max →
      2 ^ (bitLength (max + 1) - 1) ≤ max + 1 ∧
      max + 1 < 2 ^ bitLength (max + 1) ∧
      secureRandomBytesPerDraw max = (bitLength (max + 1) + 7) / 8 ∧
      (∀ buf rest, secureRandomIndex max (buf :: rest) =
        (if (buf.foldl (fun v b => v * 256 + b) 0) % 2 ^ bitLength (max + 1) < max + 1
         then some ((buf.foldl (fun v b => v * 256 + b) 0) % 2 ^ bitLength (max + 1))
         else secureRandomIndex max rest))) := by
  refine ⟨?_, ?_, ?_⟩
  · intro stream
    simp [secureRandomIndex]
  · intro max stream v h
    by_cases hm : max = 0
    · subst hm
      simp [secureRandomIndex] at h
      omega
    · rw [secureRandomIndex, if_neg hm] at h
      have := secureRandomLoop_lt _ _ stream v h
      omega
  · intro max hmax
    obtain ⟨hlo, hhi⟩ := bitLength_bounds (max + 1) (by omega)
    refine ⟨hlo, hhi, rfl, ?_⟩
    intro buf rest
    have hmask : ∀ v : Nat, v &&& (1 <<< bitLength (max + 1)) - 1
        = v % 2 ^ bitLength (max + 1) := by
      intro v
      rw [Nat.shiftLeft_eq, one_mul, Nat.and_pow_two_sub_one_eq_mod]
    have hloop : secureRandomIndex max (buf :: rest)
        = secureRandomLoop (max + 1) ((1 <<< bitLength (max + 1)) - 1) (buf :: rest) := by
      rw [secureRandomIndex, if_neg (show ¬ max = 0 by omega)]
    have hrest : secureRandomIndex max rest
        = secureRandomLoop (max + 1) ((1 <<< bitLength (max + 1)) - 1) rest := by
      rw [secureRandomIndex, if_neg (show ¬ max = 0 by omega)]
    rw [hloop, hrest, secureRandomLoop]
    simp only [hmask]

/-- C3 witness: at `max = 5` (`range = 6`, 3 bits, 1 byte per draw), the
draw `135` masks to `7`, is rejected, and the next draw `3` is accepted. -/
theorem secureRandomIndex_spec_witness :
    secureRandomIndex 0 [] = some 0 ∧
    (3 : Nat) ≤ 5 ∧
    2 ^ (bitLength (5 + 1) - 1) ≤ 5 + 1 ∧
    5 + 1 < 2 ^ bitLength (5 + 1) ∧
    secureRandomBytesPerDraw 5 = (bitLength (5 + 1) + 7) / 8 ∧
    secureRandomIndex 5 [[135], [3]] =
      (if ([135].foldl (fun v b => v * 256 + b) 0) % 2 ^ bitLength (5 + 1) < 5 + 1
       then some (([135].foldl (fun v b => v * 256 + b) 0) % 2 ^ bitLength (5 + 1))
       else secureRandomIndex 5 [[3]]) := by
  have h3 := secureRandomIndex_spec.2.2 5 (by decide)
  exact ⟨secureRandomIndex_spec.1 [],
    secureRandomIndex_spec.2.1 5 [[135], [3]] 3 (by decide),
    h3.1, h3.2.1, h3.2.2.1, h3.2.2.2 [135] [[3]]⟩

/-! ## Claim C7: the parser -/

/-- Splitting never yields an empty chunk list. -/
theorem splitCommaAux_ne_nil : ∀ (cs acc : List Char), splitCommaAux cs acc ≠ [] := by
  intro cs
  induction cs with
  | nil => intro acc; simp [splitCommaAux]
  | cons c rest ih =>
    intro acc
    rw [splitCommaAux]
    by_cases h : c = ','
    · simp [h]
    · simp only [h, if_false]
      exact ih _

/-- `splitComma` always returns at least one chunk. -/
theorem splitComma_ne_nil (s : String) : splitComma s ≠ [] :=
  splitCommaAux_ne_nil _ _

/-- `parseFaces` fails exactly when some chunk is not an integer token. -/
theorem parseFaces_error_iff :
    ∀ parts, (∃ e, DiceParser.parseFaces parts = .error e)
      ↔ ∃ t ∈ parts, jsNumber t = none := by
  intro parts
  induction parts with
  | nil => simp [DiceParser.parseFaces]
  | cons t rest ih =>
    rw [DiceParser.parseFaces]
    cases hjt : jsNumber t with
    | some n =>
      constructor
      · intro ⟨e, he⟩
        cases hr : DiceParser.parseFaces rest with
        | ok fs =>
          rw [hr] at he
          simp [Except.map] at he
        | error e2 =>
          obtain ⟨t2, ht2, hbad⟩ := ih.mp ⟨e2, hr⟩
          exact ⟨t2, List.mem_cons_of_mem t ht2, hbad⟩
      · intro ⟨t2, ht2, hbad⟩
        rcases List.mem_cons.mp ht2 with heq | hmem
        · subst heq
          rw [hjt] at hbad
          exact absurd hbad (by simp)
        · obtain ⟨e, he⟩ := ih.mpr ⟨t2, hmem, hbad⟩
          exact ⟨e, by rw [he]; rfl⟩
    | none =>
      constructor
      · intro _
        exact ⟨t, List.mem_cons_self t rest, hjt⟩
      · intro _
        exact ⟨_, rfl⟩

/-- On success, `parseFaces` returns the integer value of every chunk, in
order. -/
theorem parseFaces_ok :
    ∀ parts fs, DiceParser.parseFaces parts = .ok fs →
      fs = parts.map (fun t => (jsNumber t).getD 0) := by
  intro parts
  induction parts with
  | nil =>
    intro fs h
    simp [DiceParser.parseFaces] at h
    simp [← h]
  | cons t rest ih =>
    intro fs h
    rw [DiceParser.parseFaces] at h
    cases hjt : jsNumber t with
    | some n =>
      rw [hjt] at h
      cases hr : DiceParser.parseFaces rest with
      | ok fs2 =>
        rw [hr] at h
        simp [Except.map] at h
        simp [← h, List.map_cons, hjt, ← ih fs2 hr]
      | error e =>
        rw [hr] at h
        simp [Except.map] at h
    | none =>
      rw [hjt] at h
      simp at h

/-- `parseDiceLoop` fails exactly when some argument holds a non-integer
chunk. -/
theorem parseDiceLoop_error_iff :
    ∀ args, (∃ e, DiceParser.parseDiceLoop args = .error e)
      ↔ ∃ a ∈ args, ∃ t ∈ splitComma a, jsNumber t = none := by
  intro args
  induction args with
  | nil => simp [DiceParser.parseDiceLoop]
  | cons arg rest ih =>
    rw [DiceParser.parseDiceLoop]
    rw [if_neg (by simpa [List.length_eq_zero] using splitComma_ne_nil arg)]
    cases hp : DiceParser.parseFaces (splitComma arg) with
    | ok faces =>
      have hgood : ¬ ∃ t ∈ splitComma arg, jsNumber t = none := by
        intro hbad
        obtain ⟨e, he⟩ := (parseFaces_error_iff (splitComma arg)).mpr hbad
        rw [hp] at he
        exact absurd he (by simp)
      constructor
      · intro ⟨e, he⟩
        cases hr : DiceParser.parseDiceLoop rest with
        | ok ds =>
          rw [hr] at he
          simp [Except.map] at he
        | error e2 =>
          obtain ⟨a2, ha2, hbad2⟩ := ih.mp ⟨e2, hr⟩
          exact ⟨a2, List.mem_cons_of_mem arg ha2, hbad2⟩
      · intro ⟨a2, ha2, hbad2⟩
        rcases List.mem_cons.mp ha2 with heq | hmem
        · subst heq
          exact absurd hbad2 hgood
        · obtain ⟨e, he⟩ := ih.mpr ⟨a2, hmem, hbad2⟩
          exact ⟨e, by rw [he]; rfl⟩
    | error e =>
      have hbad := (parseFaces_error_iff (splitComma arg)).mp ⟨e, hp⟩
      constructor
      · intro _
        exact ⟨arg, List.mem_cons_self arg rest, hbad⟩
      · intro _
        exact ⟨e, rfl⟩

/-- On success, `parseDiceLoop` builds one die per argument whose faces
are the parsed chunks, in order. -/
theorem parseDiceLoop_ok :
    ∀ args ds, DiceParser.parseDiceLoop args = .ok ds →
      ds = args.map (fun a => Dice.mk ((splitComma a).map (fun t => (jsNumber t).getD 0))) := by
  intro args
  induction args with
  | nil =>
    intro ds h
    simp [DiceParser.parseDiceLoop] at h
    simp [← h]
  | cons arg rest ih =>
    intro ds h
    rw [DiceParser.parseDiceLoop] at h
    rw [if_neg (by simpa [List.length_eq_zero] using splitComma_ne_nil arg)] at h
    cases hp : DiceParser.parseFaces (splitComma arg) with
    | ok faces =>
      rw [hp] at h
      cases hr : DiceParser.parseDiceLoop rest with
      | ok ds2 =>
        rw [hr] at h
        simp [Except.map] at h
        simp [← h, List.map_cons, ← ih ds2 hr, parseFaces_ok (splitComma arg) faces hp]
      | error e =>
        rw [hr] at h
        simp [Except.map] at h
    | error e =>
      rw [hp] at h
      simp at h

/-- C7.  `parseDice` raises a configuration error exactly when fewer than
three die specifications are supplied or some comma-separated chunk is not
an integer token; on success it returns one die per specification whose
faces are the parsed integers in order.  The classic intransitive set is
accepted, two dice are rejected (too few), the single argument `1,x,3` is
rejected (too few dice), and with three arguments a non-integer chunk
fails with its own error. -/
theorem parseDice_spec :
    (∀ args, (∃ e, DiceParser.parseDice args = .error e) ↔
      (args.length < 3 ∨ ∃ a ∈ args, ∃ t ∈ splitComma a, jsNumber t = none)) ∧
    (∀ args ds, DiceParser.parseDice args = .ok ds →
      ds = args.map (fun a => Dice.mk ((splitComma a).map (fun t => (jsNumber t).getD 0)))) ∧
    DiceParser.parseDice ["2,2,4,4,9,9", "1,1,6,6,8,8", "3,3,5,5,7,7"]
      = .ok [Dice.mk [2, 2, 4, 4, 9, 9], Dice.mk [1, 1, 6, 6, 8, 8], Dice.mk [3, 3, 5, 5, 7, 7]] ∧
    DiceParser.parseDice ["1,2", "3,4"]
      = .error "You need at least 3 dice. Example: node dice_game.js 2,2,4,4,9,9 6,8,1,1,8,6 7,5,3,7,5,3" ∧
    DiceParser.parseDice ["1,x,3"]
      = .error "You need at least 3 dice. Example: node dice_game.js 2,2,4,4,9,9 6,8,1,1,8,6 7,5,3,7,5,3" ∧
    DiceParser.parseDice ["1,x,3", "1,2", "3,4"] = .error "Not a number: x" := by
  refine ⟨?_, ?_, by rfl, by rfl, by rfl, by rfl⟩
  · intro args
    rw [DiceParser.parseDice]
    by_cases h : args.length < 3
    · rw [if_pos h]
      exact ⟨fun _ => Or.inl h, fun _ => ⟨_, rfl⟩⟩
    · rw [if_neg h]
      rw [parseDiceLoop_error_iff]
      constructor
      · exact fun hh => Or.inr hh
      · intro hh
        rcases hh with hlen | hbad
        · exact absurd hlen h
        · exact hbad
  · intro args ds h
    rw [DiceParser.parseDice] at h
    by_cases hlen : args.length < 3
    · rw [if_pos hlen] at h
      exact absurd h (by simp)
    · rw [if_neg hlen] at h
      exact parseDiceLoop_ok args ds h

/-- C7 witness: the success shape at the classic intransitive dice set. -/
theorem parseDice_spec_witness :
    [Dice.mk [2, 2, 4, 4, 9, 9], Dice.mk [1, 1, 6, 6, 8, 8], Dice.mk [3, 3, 5, 5, 7, 7]]
      = ["2,2,4,4,9,9", "1,1,6,6,8,8", "3,3,5,5,7,7"].map
          (fun a => Dice.mk ((splitComma a).map (fun t => (jsNumber t).getD 0))) :=
  parseDice_spec.2.1 ["2,2,4,4,9,9", "1,1,6,6,8,8", "3,3,5,5,7,7"]
    [Dice.mk [2, 2, 4, 4, 9, 9], Dice.mk [1, 1, 6, 6, 8, 8], Dice.mk [3, 3, 5, 5, 7, 7]]
    (by rfl)
